import Mathlib

/-!
Verification of the header-guard rewriting core of `replace_header_guards.py`.

The program's core is the function `replace_header_guard(content)`:

* it searches `content` for the first header-guard pair using the regex
  `(^.*?)(^\s*#ifndef\s+(\w+)\s*$\n^\s*#define\s+\3\s*$\n?)` with the
  `MULTILINE` and `DOTALL` flags;
* it then scans `content[guard_end:]` with the regex
  `^\s*#(if|ifdef|ifndef|endif).*$` (`MULTILINE`), keeping a stack seeded
  with the guard's own `#ifndef`; `if`/`ifdef`/`ifndef` push, `endif` pops,
  and the pop that empties the stack marks the matching `#endif`;
* on success it returns
  `pre_guard + '\n#pragma once\n\n' + between + post_endif`, with trailing
  whitespace stripped and a single final newline appended; otherwise `None`.

The embedding below works on `List Char` and reproduces the regex semantics
exactly (hand-compiled from the deterministic backtracking behaviour of the
two patterns above):

* `\s` also matches `'\n'`, so blank lines may sit between the `#ifndef`
  and `#define` lines, and the guard's span ends after the *last* newline of
  the whitespace run following the `#define` identifier;
* the alternation `(if|ifdef|ifndef|endif)` has no trailing `\b`, so any
  line whose first non-whitespace text merely *starts with* `#if` or
  `#endif` counts as a directive;
* a directive match's span starts at the earliest preceding line start from
  which everything up to the `#` is whitespace, so whole whitespace-only
  lines immediately before the matching `#endif` are absorbed into its
  match and are therefore dropped from `between_content`;
* a directive match ends just before the newline of the directive's line,
  so `post_endif_content` begins with that newline.
-/

namespace HG

/-- Python's `\s` character class (ASCII range, as exercised here):
space, tab, newline, carriage return, vertical tab, form feed. -/
def isWs (c : Char) : Bool :=
  c == ' ' || c == '\t' || c == '\n' || c == '\r' || c == '\x0b' || c == '\x0c'

/-- Python's `\w` character class (ASCII range): letters, digits, underscore. -/
def isWord (c : Char) : Bool := c.isAlphanum || c == '_'

/-- `begins p s` is true when `p` is a leading segment of `s`
(a literal-string match of `p` at the start of `s`). -/
def begins : List Char → List Char → Bool
  | [], _ => true
  | _ :: _, [] => false
  | a :: as, b :: bs => a == b && begins as bs

/-- Literal-string match at the start of `s`, returning the remainder. -/
def stripPre : List Char → List Char → Option (List Char)
  | [], s => some s
  | _ :: _, [] => none
  | a :: as, b :: bs => if a == b then stripPre as bs else none

/-- Concatenation of a list of lines. -/
def joinL : List (List Char) → List Char
  | [] => []
  | l :: ls => l ++ joinL ls

/-- Helper for `splitLines`; `cur` is the reversed current line. -/
def splitLinesAux (cur : List Char) : List Char → List (List Char)
  | [] => if cur.isEmpty then [] else [cur.reverse]
  | c :: cs =>
    if c == '\n' then (cur.reverse ++ ['\n']) :: splitLinesAux [] cs
    else splitLinesAux (c :: cur) cs

/-- Split into lines, each keeping its terminating newline
(the final line may lack one), like iterating a Python string's lines. -/
def splitLines (s : List Char) : List (List Char) := splitLinesAux [] s

/-- Python `str.rstrip()`: remove all trailing whitespace. -/
def rstrip (s : List Char) : List Char := (s.reverse.dropWhile isWs).reverse

/-- Whether a list contains a newline character. -/
def hasNl (l : List Char) : Bool := l.any (· == '\n')

/-- The suffix of `l` strictly after its last `'\n'`, if any.
This captures greedy `\s*` backtracking to the last position of a
whitespace run at which `$` holds, with `\n` then consumed. -/
def lastNlSplit : List Char → Option (List Char)
  | [] => none
  | c :: cs =>
    match lastNlSplit cs with
    | some suf => some suf
    | none => if c == '\n' then some cs else none

def lIfndef : List Char := "#ifndef".toList

def lDefine : List Char := "#define".toList

def lIf : List Char := "#if".toList

def lEndif : List Char := "#endif".toList

/-- The text `'\n#pragma once\n\n'` inserted by the rewriter. -/
def pragmaIns : List Char := "\n#pragma once\n\n".toList

/-- The trailing `\s*$\n?` of the guard regex, at the end of the whole
match: with greedy backtracking the match ends at end-of-string when the
whitespace run reaches it, otherwise just after the last newline of the
run; if the run contains no newline (and does not reach the end), the
match attempt fails. Returns `content[match.end(2):]`. -/
def endSpan (s : List Char) : Option (List Char) :=
  if (s.dropWhile isWs).isEmpty then some []
  else
    match lastNlSplit (s.takeWhile isWs) with
    | some suf => some (suf ++ s.dropWhile isWs)
    | none => none

/-- Regex fragment `\s+\3` on the `#define` side: at least one whitespace
character, then the identifier captured by group 3 as a literal; the
back-reference starts at the first non-whitespace character because the
identifier's first character cannot be whitespace. On success, hand the
remainder to the final `\s*$\n?` (`endSpan`). -/
def g2Ident (name s6 : List Char) : Option (List Char) :=
  match s6 with
  | [] => none
  | d :: _ =>
    if isWs d then
      match stripPre name (s6.dropWhile isWs) with
      | none => none
      | some s8 => endSpan s8
    else none

/-- Regex fragment `\s*$\n^\s*#define` between the two directive lines:
the whitespace run after the identifier must contain a newline (for
`$\n^`), and the first non-whitespace character after it must start the
literal `#define`. -/
def g2Define (name s4 : List Char) : Option (List Char) :=
  if hasNl (s4.takeWhile isWs) then
    match stripPre lDefine (s4.dropWhile isWs) with
    | none => none
    | some s6 => g2Ident name s6
  else none

/-- Regex fragment `\s+(\w+)`: at least one whitespace character, then the
greedy maximal word-character run is captured as group 3 (the guard
name), which must be non-empty. -/
def g2Name (s2 : List Char) : Option (List Char) :=
  match s2 with
  | [] => none
  | c :: _ =>
    if isWs c then
      let s3 := s2.dropWhile isWs
      let name := s3.takeWhile isWord
      if name.isEmpty then none else g2Define name (s3.dropWhile isWord)
    else none

/-- One attempt of group 2 of the header-guard regex
`^\s*#ifndef\s+(\w+)\s*$\n^\s*#define\s+\3\s*$\n?` at a line-start
position (the text from that position being `s`). On success, returns
the text after the match end, i.e. `post_define_content`. -/
def matchG2 (s : List Char) : Option (List Char) :=
  match stripPre lIfndef (s.dropWhile isWs) with
  | none => none
  | some s2 => g2Name s2

/-- `re.search` of the guard pattern: try `matchG2` at every line start in
order (string start, then after each newline); `pre` accumulates
`pre_guard_content`, the text before the position where group 2 matches. -/
def findGuardLines (pre : List Char) : List (List Char) → Option (List Char × List Char)
  | [] => none
  | l :: ls =>
    match matchG2 (joinL (l :: ls)) with
    | some post => some (pre, post)
    | none => findGuardLines (pre ++ l) ls

/-- The Guard Locator: returns `(pre_guard_content, post_define_content)`
of the first guard match, or `none`. -/
def findGuard (content : List Char) : Option (List Char × List Char) :=
  findGuardLines [] (splitLines content)

/-- A line consisting only of whitespace. -/
def isBlankLine (l : List Char) : Bool := l.all isWs

/-- Outcome of the nesting scan over `post_define_content`. -/
inductive ScanRes where
  | found (between suffix : List Char)
  | exhausted
  | popEmpty
deriving DecidableEq

/-- `between_content = post_define_content[:directive_match.start()]`:
the processed lines (`acc`, most recent first) minus the trailing run of
whitespace-only lines, which the terminating `#endif` match absorbed into
its own span through its leading `^\s*`. -/
def betweenOf (acc : List (List Char)) : List Char :=
  joinL ((acc.dropWhile isBlankLine).reverse)

/-- `post_endif_content = content[endif_pos:]`: the directive match ends
just before the newline of the `#endif` line `l`, so that newline (when
present) is the first character of the suffix. -/
def suffixFrom (l : List Char) (ls : List (List Char)) : List Char :=
  (if l.getLast? == some '\n' then ['\n'] else []) ++ joinL ls

/-- The Nesting Matcher loop: directives are the lines matching
`^\s*#(if|ifdef|ifndef|endif).*$` in document order; a leading-prefix test
suffices because the alternation has no trailing `\b` and tries `if`
first. `if`/`ifdef`/`ifndef` push, `endif` pops; popping the last entry
reports the split, popping an empty stack models the uncaught
`IndexError` of `list.pop()`. -/
def scanLines (stack : List Unit) (acc : List (List Char)) : List (List Char) → ScanRes
  | [] => .exhausted
  | l :: ls =>
    if begins lIf (l.dropWhile isWs) then scanLines (() :: stack) (l :: acc) ls
    else if begins lEndif (l.dropWhile isWs) then
      match stack with
      | [] => .popEmpty
      | [_] => .found (betweenOf acc) (suffixFrom l ls)
      | _ :: rest => scanLines rest (l :: acc) ls
    else scanLines stack (l :: acc) ls

/-- `replace_header_guard`, with the possibility of an uncaught exception
made explicit: `.error ()` would be a `list.pop()` on an empty stack. -/
def replaceExc (content : List Char) : Except Unit (Option (List Char)) :=
  match findGuard content with
  | none => .ok none
  | some (pre, post) =>
    match scanLines [()] [] (splitLines post) with
    | .popEmpty => .error ()
    | .exhausted => .ok none
    | .found between suffix =>
      .ok (some (rstrip (pre ++ pragmaIns ++ between ++ suffix) ++ ['\n']))

/-- The source's `replace_header_guard(content)`: `none` models Python's
`None`, `some t` a rewritten buffer. -/
def replace_header_guard (content : List Char) : Option (List Char) :=
  match replaceExc content with
  | .ok r => r
  | .error _ => none

/-- The per-file transform as `process_file` applies it: the file's text
afterwards is the rewritten buffer when one is produced, otherwise the
original content. -/
def rewriteFile (content : List Char) : List Char :=
  (replace_header_guard content).getD content

/-- An `#ifndef NAME` line. -/
def ifndef_line (nm : List Char) : List Char := lIfndef ++ ' ' :: (nm ++ ['\n'])

/-- A `#define NAME` line. -/
def define_line (nm : List Char) : List Char := lDefine ++ ' ' :: (nm ++ ['\n'])

/-- A single physical line: ends with a newline and has no interior one. -/
def isLine (l : List Char) : Bool :=
  l.getLast? == some '\n' && l.dropLast.all (· != '\n')

/-- `p` occurs as a contiguous segment of `s`. -/
def hasSeg (p : List Char) : List Char → Bool
  | [] => begins p []
  | c :: cs => begins p (c :: cs) || hasSeg p cs

/-- How the Nesting Matcher's directive pattern
`^\s*#(if|ifdef|ifndef|endif).*$` classifies a line: `up` lines push,
`down` lines pop, `keep` lines are not directives and are passed through. -/
inductive DirKind where
  | up
  | down
  | keep
deriving DecidableEq

/-- The classification performed inside the scan loop: a line whose first
non-whitespace text starts with the literal `#if` (which subsumes
`#ifdef`/`#ifndef`, the alternation trying `if` first) opens, one starting
with `#endif` closes, anything else is carried through. -/
def lineKind (l : List Char) : DirKind :=
  if begins lIf (l.dropWhile isWs) then .up
  else if begins lEndif (l.dropWhile isWs) then .down
  else .keep

/-- The literal token `p` at the start of `t` followed by a word boundary:
either end of text or a non-word character. -/
def wordBoundAfter (p t : List Char) : Bool :=
  match stripPre p t with
  | none => false
  | some [] => true
  | some (c :: _) => !isWord c

/-- Modelled from the spec: a line matching the pattern
`^\s*#(if|ifdef|ifndef|endif)\b` that the spec claims the Nesting Matcher
uses — with a word boundary `\b` after the directive token, which the
source pattern `^\s*#(if|ifdef|ifndef|endif).*$` does not have. -/
def spec_directive_line (l : List Char) : Bool :=
  wordBoundAfter lIf (l.dropWhile isWs)
    || wordBoundAfter lIfndef (l.dropWhile isWs)
    || wordBoundAfter ("#ifdef".toList) (l.dropWhile isWs)
    || wordBoundAfter lEndif (l.dropWhile isWs)

/-! ### Generic list lemmas -/

theorem dropWhile_cons_pos {α} (p : α → Bool) (a : α) (l : List α) (h : p a = true) :
    (a :: l).dropWhile p = l.dropWhile p := by
  simp [List.dropWhile, h]

theorem dropWhile_cons_neg {α} (p : α → Bool) (a : α) (l : List α) (h : p a = false) :
    (a :: l).dropWhile p = a :: l := by
  simp [List.dropWhile, h]

theorem takeWhile_cons_pos {α} (p : α → Bool) (a : α) (l : List α) (h : p a = true) :
    (a :: l).takeWhile p = a :: l.takeWhile p := by
  simp [List.takeWhile, h]

theorem takeWhile_cons_neg {α} (p : α → Bool) (a : α) (l : List α) (h : p a = false) :
    (a :: l).takeWhile p = [] := by
  simp [List.takeWhile, h]

theorem dropWhile_append_all {α} (p : α → Bool) {a : List α} (b : List α)
    (h : ∀ c ∈ a, p c = true) : (a ++ b).dropWhile p = b.dropWhile p := by
  induction a with
  | nil => rfl
  | cons x xs ih =>
    rw [List.cons_append, dropWhile_cons_pos _ _ _ (h x (by simp))]
    exact ih fun c hc => h c (by simp [hc])

theorem takeWhile_append_all {α} (p : α → Bool) {a : List α} (b : List α)
    (h : ∀ c ∈ a, p c = true) : (a ++ b).takeWhile p = a ++ b.takeWhile p := by
  induction a with
  | nil => rfl
  | cons x xs ih =>
    rw [List.cons_append, takeWhile_cons_pos _ _ _ (h x (by simp)), List.cons_append]
    rw [ih fun c hc => h c (by simp [hc])]

theorem dropWhile_append_stop {α} (p : α → Bool) {a : List α} (b : List α)
    (h : a.dropWhile p ≠ []) : (a ++ b).dropWhile p = a.dropWhile p ++ b := by
  induction a with
  | nil => exact absurd rfl h
  | cons x xs ih =>
    cases hx : p x with
    | true =>
      rw [dropWhile_cons_pos _ _ _ hx] at h
      rw [List.cons_append, dropWhile_cons_pos _ _ _ hx, dropWhile_cons_pos _ _ _ hx]
      exact ih h
    | false =>
      rw [List.cons_append, dropWhile_cons_neg _ _ _ hx, dropWhile_cons_neg _ _ _ hx,
        List.cons_append]

theorem takeWhile_append_stop {α} (p : α → Bool) {a : List α} (b : List α)
    (h : a.dropWhile p ≠ []) : (a ++ b).takeWhile p = a.takeWhile p := by
  induction a with
  | nil => exact absurd rfl h
  | cons x xs ih =>
    cases hx : p x with
    | true =>
      rw [dropWhile_cons_pos _ _ _ hx] at h
      rw [List.cons_append, takeWhile_cons_pos _ _ _ hx, takeWhile_cons_pos _ _ _ hx, ih h]
    | false =>
      rw [List.cons_append, takeWhile_cons_neg _ _ _ hx, takeWhile_cons_neg _ _ _ hx]

theorem dropWhile_ne_nil_of_mem {α} (p : α → Bool) {a : List α} {x : α}
    (hx : x ∈ a) (hp : p x = false) : a.dropWhile p ≠ [] := by
  intro h
  rw [List.dropWhile_eq_nil_iff] at h
  rw [h x hx] at hp
  exact Bool.noConfusion hp

theorem all_eq_false_of_dropWhile_ne {α} (p : α → Bool) {a : List α}
    (h : a.dropWhile p ≠ []) : a.all p = false := by
  cases ha : a.all p with
  | false => rfl
  | true =>
    exact absurd (List.dropWhile_eq_nil_iff.mpr fun x hx => by
      exact List.all_eq_true.mp ha x hx) h

/-! ### Lemmas about the embedding's basic string operations -/

theorem begins_append_self (p t : List Char) : begins p (p ++ t) = true := by
  induction p with
  | nil => rfl
  | cons a as ih => simp [begins, ih]

theorem begins_iff_ex (p s : List Char) : begins p s = true ↔ ∃ t, s = p ++ t := by
  induction p generalizing s with
  | nil => simp [begins]
  | cons a as ih =>
    cases s with
    | nil => simp [begins]
    | cons b bs =>
      simp only [begins, Bool.and_eq_true, beq_iff_eq, ih]
      constructor
      · rintro ⟨rfl, t, rfl⟩
        exact ⟨t, rfl⟩
      · rintro ⟨t, ht⟩
        cases ht
        exact ⟨rfl, t, rfl⟩

theorem stripPre_append (p t : List Char) : stripPre p (p ++ t) = some t := by
  induction p with
  | nil => rfl
  | cons a as ih => simp [stripPre, ih]

theorem stripPre_cons_ne {a b : Char} (as bs : List Char) (h : ¬a = b) :
    stripPre (a :: as) (b :: bs) = none := by
  simp [stripPre, h]

/-- A literal `p` that does not match at the start of `t` cannot match
`t ++ X` either, provided `X`'s first character occurs nowhere in `p`
past its head (so the match cannot succeed by running off the end of `t`
into `X`). -/
theorem stripPre_append_none :
    ∀ (p t X : List Char), t ≠ [] → begins p t = false →
      (∀ c, X.head? = some c → c ∉ p.drop 1) →
      stripPre p (t ++ X) = none := by
  intro p
  induction p with
  | nil =>
    intro t X _ hb _
    simp [begins] at hb
  | cons a as ih =>
    intro t X ht hb hX
    cases t with
    | nil => exact absurd rfl ht
    | cons b bs =>
      by_cases hab : a = b
      · subst hab
        have hb' : begins as bs = false := by simpa [begins] using hb
        have hstep : stripPre (a :: as) ((a :: bs) ++ X) = stripPre as (bs ++ X) := by
          simp [stripPre]
        rw [hstep]
        cases bs with
        | nil =>
          have has : as ≠ [] := by
            intro h
            rw [h] at hb'
            simp [begins] at hb'
          obtain ⟨a', as', rfl⟩ : ∃ a' as', as = a' :: as' := by
            cases as with
            | nil => exact absurd rfl has
            | cons a' as' => exact ⟨a', as', rfl⟩
          cases X with
          | nil => rfl
          | cons c X' =>
            have hc : c ∉ (a :: a' :: as').drop 1 := hX c rfl
            have hca : ¬a' = c := fun h => hc (by rw [h]; exact List.mem_cons_self c as')
            exact stripPre_cons_ne _ _ hca
        | cons b' bs' =>
          exact ih (b' :: bs') X (by simp) hb'
            (fun c hc hmem => hX c hc (List.drop_subset _ _ hmem))
      · rw [List.cons_append]
        exact stripPre_cons_ne _ _ hab

theorem lastNlSplit_eq_none {l : List Char} (h : ∀ c ∈ l, ¬c = '\n') :
    lastNlSplit l = none := by
  induction l with
  | nil => rfl
  | cons c cs ih =>
    rw [lastNlSplit, ih fun x hx => h x (by simp [hx])]
    simp [h c (by simp)]

theorem splitLinesAux_cons_nl (cur cs : List Char) :
    splitLinesAux cur ('\n' :: cs) = (cur.reverse ++ ['\n']) :: splitLinesAux [] cs := by
  simp [splitLinesAux]

theorem splitLinesAux_cons {c : Char} (hc : ¬c = '\n') (cur cs : List Char) :
    splitLinesAux cur (c :: cs) = splitLinesAux (c :: cur) cs := by
  simp [splitLinesAux, hc]

theorem hasSeg_cons (p : List Char) (c : Char) (t : List Char) :
    hasSeg p (c :: t) = (begins p (c :: t) || hasSeg p t) := rfl

theorem joinL_append (a b : List (List Char)) : joinL (a ++ b) = joinL a ++ joinL b := by
  induction a with
  | nil => rfl
  | cons l ls ih => simp [joinL, ih]

theorem joinL_splitLinesAux (cur : List Char) (s : List Char) :
    joinL (splitLinesAux cur s) = cur.reverse ++ s := by
  induction s generalizing cur with
  | nil =>
    cases cur with
    | nil => rfl
    | cons c cs => simp [splitLinesAux, joinL]
  | cons c cs ih =>
    by_cases hc : c = '\n'
    · subst hc
      simp [splitLinesAux, joinL, ih]
    · simp [splitLinesAux, hc, ih]

theorem joinL_splitLines (s : List Char) : joinL (splitLines s) = s := by
  simpa using joinL_splitLinesAux [] s

theorem splitLinesAux_append (body : List Char) (hb : ∀ c ∈ body, ¬c = '\n')
    (cur s : List Char) :
    splitLinesAux cur (body ++ '\n' :: s) =
      (cur.reverse ++ body ++ ['\n']) :: splitLines s := by
  induction body generalizing cur with
  | nil => rw [List.nil_append, splitLinesAux_cons_nl, splitLines]; simp
  | cons c cs ih =>
    have hc : ¬c = '\n' := hb c (by simp)
    rw [List.cons_append, splitLinesAux_cons hc,
      ih (fun x hx => hb x (by simp [hx])) (c :: cur)]
    simp

theorem line_eq_dropLast_nl {l : List Char} (hl : isLine l = true) :
    l = l.dropLast ++ ['\n'] ∧ ∀ c ∈ l.dropLast, ¬c = '\n' := by
  rw [isLine, Bool.and_eq_true, beq_iff_eq] at hl
  obtain ⟨h1, h2⟩ := hl
  refine ⟨(List.dropLast_append_getLast? _ h1).symm, fun c hc => ?_⟩
  have := List.all_eq_true.mp h2 c hc
  simpa using this

theorem splitLines_line_append {l : List Char} (hl : isLine l = true) (s : List Char) :
    splitLines (l ++ s) = l :: splitLines s := by
  obtain ⟨h1, h2⟩ := line_eq_dropLast_nl hl
  calc splitLines (l ++ s) = splitLinesAux [] (l.dropLast ++ '\n' :: s) := by
        rw [splitLines]
        congr 1
        rw [h1]
        simp
    _ = l :: splitLines s := by
        rw [splitLinesAux_append _ h2]
        rw [List.reverse_nil, List.nil_append, ← h1]

theorem splitLines_joinL_lines {lines : List (List Char)}
    (h : ∀ l ∈ lines, isLine l = true) (s : List Char) :
    splitLines (joinL lines ++ s) = lines ++ splitLines s := by
  induction lines with
  | nil => simp [joinL]
  | cons l ls ih =>
    rw [joinL, List.append_assoc, splitLines_line_append (h l (by simp)),
      ih fun x hx => h x (by simp [hx])]
    rfl

theorem rstrip_append {a b : List Char} (h : b.reverse.dropWhile isWs ≠ []) :
    rstrip (a ++ b) = a ++ rstrip b := by
  rw [rstrip, rstrip, List.reverse_append, dropWhile_append_stop _ _ h,
    List.reverse_append, List.reverse_reverse]

theorem rstrip_append_of_mem {a b : List Char} {x : Char} (hx : x ∈ b)
    (hw : isWs x = false) : rstrip (a ++ b) = a ++ rstrip b :=
  rstrip_append (dropWhile_ne_nil_of_mem _ (by simp [hx]) hw)

theorem hasSeg_of_begins {p s : List Char} (h : begins p s = true) : hasSeg p s = true := by
  cases s with
  | nil => exact h
  | cons c cs => simp [hasSeg, h]

theorem hasSeg_append_left (x : List Char) {p s : List Char} (h : hasSeg p s = true) :
    hasSeg p (x ++ s) = true := by
  induction x with
  | nil => exact h
  | cons c cs ih => rw [List.cons_append, hasSeg_cons, ih, Bool.or_true]

theorem hasSeg_mid (p x y : List Char) : hasSeg p (x ++ (p ++ y)) = true :=
  hasSeg_append_left x (hasSeg_of_begins (begins_append_self p y))

/-! ### Character-class facts -/

theorem word_not_ws {c : Char} (h : isWord c = true) : isWs c = false := by
  cases hws : isWs c with
  | false => rfl
  | true =>
    exfalso
    rw [isWs] at hws
    simp only [Bool.or_eq_true, beq_iff_eq] at hws
    rcases hws with ((((rfl | rfl) | rfl) | rfl) | rfl) | rfl <;> exact absurd h (by decide)

theorem word_ne_nl {c : Char} (h : isWord c = true) : ¬c = '\n' := by
  intro hc
  subst hc
  exact absurd h (by decide)

/-! ### Evaluating the Guard Locator on structured inputs -/

theorem lIfndef_eq : lIfndef = '#' :: 'i' :: 'f' :: 'n' :: 'd' :: 'e' :: 'f' :: [] := rfl

theorem lDefine_eq : lDefine = '#' :: 'd' :: 'e' :: 'f' :: 'i' :: 'n' :: 'e' :: [] := rfl

theorem dropWhile_ws_lIfndef (T : List Char) :
    (lIfndef ++ T).dropWhile isWs = lIfndef ++ T := by
  rw [lIfndef_eq]
  simp only [List.cons_append, List.nil_append]
  exact dropWhile_cons_neg _ _ _ (by decide)

theorem dropWhile_ws_lDefine (T : List Char) :
    (lDefine ++ T).dropWhile isWs = lDefine ++ T := by
  rw [lDefine_eq]
  simp only [List.cons_append, List.nil_append]
  exact dropWhile_cons_neg _ _ _ (by decide)

theorem takeWhile_ws_lDefine (T : List Char) :
    (lDefine ++ T).takeWhile isWs = [] := by
  rw [lDefine_eq]
  simp only [List.cons_append, List.nil_append]
  exact takeWhile_cons_neg _ _ _ (by decide)

theorem hasNl_cons_nl (t : List Char) : hasNl ('\n' :: t) = true := by
  simp [hasNl]

theorem dropWhile_ws_word {nm : List Char} (T : List Char) (h1 : nm ≠ [])
    (h2 : ∀ c ∈ nm, isWord c = true) :
    (nm ++ T).dropWhile isWs = nm ++ T := by
  cases nm with
  | nil => exact absurd rfl h1
  | cons c cs =>
    rw [List.cons_append]
    exact dropWhile_cons_neg _ _ _ (word_not_ws (h2 c (by simp)))

theorem takeWhile_word_self {nm : List Char} (T : List Char)
    (h2 : ∀ c ∈ nm, isWord c = true) :
    (nm ++ '\n' :: T).takeWhile isWord = nm := by
  rw [takeWhile_append_all _ _ h2, takeWhile_cons_neg _ _ _ (by decide), List.append_nil]

theorem dropWhile_word_self {nm : List Char} (T : List Char)
    (h2 : ∀ c ∈ nm, isWord c = true) :
    (nm ++ '\n' :: T).dropWhile isWord = '\n' :: T := by
  rw [dropWhile_append_all _ _ h2, dropWhile_cons_neg _ _ _ (by decide)]

/-- The final `\s*$\n?` succeeds, ending right after the newline, when the
whitespace run continuing past it contains no further newline and the text
beyond the run is non-empty. -/
theorem endSpan_nl {rest : List Char} (h4 : ∀ x ∈ rest.takeWhile isWs, ¬x = '\n')
    (h5 : rest.dropWhile isWs ≠ []) : endSpan ('\n' :: rest) = some rest := by
  rw [endSpan, dropWhile_cons_pos _ _ _ (by decide), takeWhile_cons_pos _ _ _ (by decide)]
  obtain ⟨x, xs, hx⟩ : ∃ x xs, rest.dropWhile isWs = x :: xs := by
    cases h : rest.dropWhile isWs with
    | nil => exact absurd h h5
    | cons x xs => exact ⟨x, xs, rfl⟩
  rw [hx]
  simp only [List.isEmpty_cons, Bool.false_eq_true, if_false]
  rw [lastNlSplit]
  rw [lastNlSplit_eq_none h4]
  simp only [beq_self_eq_true, if_true]
  rw [← hx, List.takeWhile_append_dropWhile]

/-- The final `\s*$\n?` fails when the whitespace run at `s` contains no
newline and non-whitespace text (not at end-of-string) follows it: `$`
holds at no position of the run. -/
theorem endSpan_none {s : List Char} (h1 : ∀ x ∈ s.takeWhile isWs, ¬x = '\n')
    (h2 : s.dropWhile isWs ≠ []) : endSpan s = none := by
  rw [endSpan]
  obtain ⟨x, xs, hx⟩ : ∃ x xs, s.dropWhile isWs = x :: xs := by
    cases h : s.dropWhile isWs with
    | nil => exact absurd h h2
    | cons x xs => exact ⟨x, xs, rfl⟩
  rw [hx]
  simp only [List.isEmpty_cons, Bool.false_eq_true, if_false]
  rw [lastNlSplit_eq_none h1]

/-- Evaluating `matchG2` across the `#ifndef NAME` line: the regex head
`^\s*#ifndef\s+(\w+)` consumes the line and captures `NAME`. -/
theorem matchG2_to_g2Define {nm : List Char} (rest₂ : List Char) (h1 : nm ≠ [])
    (h2 : ∀ c ∈ nm, isWord c = true) :
    matchG2 (ifndef_line nm ++ rest₂) = g2Define nm ('\n' :: rest₂) := by
  have hshape : ifndef_line nm ++ rest₂ = lIfndef ++ (' ' :: (nm ++ '\n' :: rest₂)) := by
    simp [ifndef_line]
  rw [matchG2, hshape, dropWhile_ws_lIfndef, stripPre_append]
  show g2Name (' ' :: (nm ++ '\n' :: rest₂)) = _
  rw [g2Name]
  simp only [if_pos (show isWs ' ' = true from rfl)]
  rw [dropWhile_cons_pos _ _ _ (by decide), dropWhile_ws_word _ h1 h2,
    takeWhile_word_self _ h2, dropWhile_word_self _ h2]
  simp only [List.isEmpty_eq_true, if_neg h1]

/-- Evaluating the regex middle `\s*$\n^\s*#define` across an all-whitespace
separator `w` (covering zero or more blank lines) onto the `#define` line. -/
theorem g2Define_ws {w : List Char} (nm1 nm2 rest : List Char)
    (hw : ∀ c ∈ w, isWs c = true) :
    g2Define nm1 ('\n' :: (w ++ (define_line nm2 ++ rest))) =
      g2Ident nm1 (' ' :: (nm2 ++ '\n' :: rest)) := by
  have hshape : w ++ (define_line nm2 ++ rest) = w ++ (lDefine ++ (' ' :: (nm2 ++ '\n' :: rest))) := by
    simp [define_line]
  rw [g2Define, hshape, takeWhile_cons_pos _ _ _ (by decide), dropWhile_cons_pos _ _ _ (by decide),
    dropWhile_append_all _ _ hw, dropWhile_ws_lDefine, stripPre_append]
  rw [if_pos]
  exact hasNl_cons_nl _

/-- Evaluating `\s+\3` when the `#define` identifier is the same literal as
the captured guard name. -/
theorem g2Ident_self {nm : List Char} (rest : List Char) (h1 : nm ≠ [])
    (h2 : ∀ c ∈ nm, isWord c = true) :
    g2Ident nm (' ' :: (nm ++ '\n' :: rest)) = endSpan ('\n' :: rest) := by
  rw [g2Ident]
  simp only [if_pos (show isWs ' ' = true from rfl)]
  rw [dropWhile_cons_pos _ _ _ (by decide), dropWhile_ws_word _ h1 h2]
  have : nm ++ '\n' :: rest = nm ++ ('\n' :: rest) := rfl
  rw [this, stripPre_append]

/-- A word-character literal `A` matched against text `B ++ '\n' :: t`
with `A ≠ B`: either the literal match fails outright, or `A` is a proper
prefix of `B` (so the remainder after the match starts with `B`'s next
character). -/
theorem stripPre_word_cases (A : List Char) :
    ∀ (B t : List Char), (∀ c ∈ A, isWord c = true) → A ≠ B →
      stripPre A (B ++ '\n' :: t) = none ∨
      ∃ B', B = A ++ B' ∧ B' ≠ [] ∧
        stripPre A (B ++ '\n' :: t) = some (B' ++ '\n' :: t) := by
  induction A with
  | nil =>
    intro B t _ hne
    exact Or.inr ⟨B, rfl, fun h => hne h.symm, rfl⟩
  | cons a as ih =>
    intro B t hA hne
    cases B with
    | nil =>
      refine Or.inl ?_
      rw [List.nil_append]
      exact stripPre_cons_ne _ _ (word_ne_nl (hA a (by simp)))
    | cons b bs =>
      by_cases hab : a = b
      · subst hab
        have hA' : ∀ c ∈ as, isWord c = true := fun c hc => hA c (by simp [hc])
        have hne' : as ≠ bs := fun h => hne (by rw [h])
        rcases ih bs t hA' hne' with h | ⟨B', hB, hB', hsome⟩
        · refine Or.inl ?_
          rw [List.cons_append]
          simp [stripPre, h]
        · refine Or.inr ⟨B', by rw [hB]; rfl, hB', ?_⟩
          rw [List.cons_append]
          simp [stripPre, hsome]
      · refine Or.inl ?_
        rw [List.cons_append]
        exact stripPre_cons_ne _ _ hab

/-- Rejection of mismatched identifiers: with `#ifndef A` captured and the
`#define` line bearing a different identifier `B`, the back-reference `\3`
(followed by `\s*$`) cannot match. -/
theorem g2Ident_ne {A B : List Char} (rest : List Char)
    (hAw : ∀ c ∈ A, isWord c = true)
    (hBne : B ≠ []) (hBw : ∀ c ∈ B, isWord c = true)
    (hne : A ≠ B) :
    g2Ident A (' ' :: (B ++ '\n' :: rest)) = none := by
  rw [g2Ident]
  simp only [if_pos (show isWs ' ' = true from rfl)]
  rw [dropWhile_cons_pos _ _ _ (by decide), dropWhile_ws_word _ hBne hBw]
  have hBs : B ++ '\n' :: rest = B ++ '\n' :: rest := rfl
  rcases stripPre_word_cases A B rest hAw hne with h | ⟨B', hB, hB'ne, hsome⟩
  · rw [h]
  · rw [hsome]
    obtain ⟨x, xs, rfl⟩ : ∃ x xs, B' = x :: xs := by
      cases B' with
      | nil => exact absurd rfl hB'ne
      | cons x xs => exact ⟨x, xs, rfl⟩
    have hxw : isWord x = true := hBw x (by rw [hB]; simp)
    show endSpan (x :: (xs ++ '\n' :: rest)) = none
    rw [endSpan, dropWhile_cons_neg _ _ _ (word_not_ws hxw),
      takeWhile_cons_neg _ _ _ (word_not_ws hxw)]
    simp [lastNlSplit]

/-- Rejection of non-blank intervening content: if the text between the
`#ifndef` line and the next `#define`-shaped line does not start (after
leading whitespace) with the literal `#define` — covering plain code as
well as other directives such as `#include`, `#pragma` or `#if 0` — the
regex middle `\s*$\n^\s*#define` cannot match; the literal also cannot
match by running past `mid` into the following text, whose first
character `#` occurs nowhere in `#define` past its head. -/
theorem g2Define_mid_reject (nm : List Char) {mid : List Char} (rest₂ : List Char)
    (hne : mid.dropWhile isWs ≠ [])
    (hnb : begins lDefine (mid.dropWhile isWs) = false)
    (hX : ∀ c, rest₂.head? = some c → c ∉ lDefine.drop 1) :
    g2Define nm ('\n' :: (mid ++ rest₂)) = none := by
  rw [g2Define, takeWhile_cons_pos _ _ _ (by decide), dropWhile_cons_pos _ _ _ (by decide)]
  rw [if_pos (hasNl_cons_nl _), dropWhile_append_stop _ _ hne,
    stripPre_append_none _ _ _ hne hnb hX]

/-- Rejection of an intervening `#define`-directive-shaped line bearing
the right identifier but followed by junk (e.g. `#define A extra`): the
back-reference matches but the required `\s*$` does not, because the text
after the identifier holds non-whitespace before any newline. -/
theorem matchG2_junk_reject {nm j : List Char} (X : List Char)
    (h1 : nm ≠ []) (h2 : ∀ ch ∈ nm, isWord ch = true)
    (hj1 : ∀ x ∈ j.takeWhile isWs, ¬x = '\n') (hj2 : j.dropWhile isWs ≠ []) :
    matchG2 (ifndef_line nm ++ ((lDefine ++ ' ' :: (nm ++ j)) ++ X)) = none := by
  rw [matchG2_to_g2Define _ h1 h2]
  have hshape : (lDefine ++ ' ' :: (nm ++ j)) ++ X = lDefine ++ (' ' :: (nm ++ (j ++ X))) := by
    simp [List.append_assoc]
  rw [hshape, g2Define, takeWhile_cons_pos _ _ _ (by decide),
    dropWhile_cons_pos _ _ _ (by decide), dropWhile_ws_lDefine, stripPre_append,
    if_pos (hasNl_cons_nl _)]
  show g2Ident nm (' ' :: (nm ++ (j ++ X))) = none
  rw [g2Ident]
  simp only [if_pos (show isWs ' ' = true from rfl)]
  rw [dropWhile_cons_pos _ _ _ (by decide), dropWhile_ws_word _ h1 h2, stripPre_append]
  show endSpan (j ++ X) = none
  refine endSpan_none ?_ ?_
  · rw [takeWhile_append_stop _ _ hj2]
    exact hj1
  · rw [dropWhile_append_stop _ _ hj2]
    intro hcontra
    exact hj2 (List.append_eq_nil.mp hcontra).1

/-- Rejection of intervening text whose first non-whitespace content is
`#define` immediately followed by a non-whitespace character (e.g.
`#definextra`): the regex `#define\s+` demands whitespace there. -/
theorem matchG2_nows_reject {nm : List Char} {d : Char} (r X : List Char)
    (h1 : nm ≠ []) (h2 : ∀ ch ∈ nm, isWord ch = true) (hd : isWs d = false) :
    matchG2 (ifndef_line nm ++ ((lDefine ++ d :: r) ++ X)) = none := by
  rw [matchG2_to_g2Define _ h1 h2]
  have hshape : (lDefine ++ d :: r) ++ X = lDefine ++ (d :: (r ++ X)) := by
    simp [List.append_assoc]
  rw [hshape, g2Define, takeWhile_cons_pos _ _ _ (by decide),
    dropWhile_cons_pos _ _ _ (by decide), dropWhile_ws_lDefine, stripPre_append,
    if_pos (hasNl_cons_nl _)]
  show g2Ident nm (d :: (r ++ X)) = none
  rw [g2Ident]
  simp [hd]

/-- Full success of the Guard Locator on
`#ifndef NAME⏎ <blank/ws> #define NAME⏎ rest`: the guard is located with
empty prologue and `post_define_content = rest`. -/
theorem matchG2_found {nm w rest : List Char}
    (h1 : nm ≠ []) (h2 : ∀ c ∈ nm, isWord c = true)
    (h3 : ∀ c ∈ w, isWs c = true)
    (h4 : ∀ x ∈ rest.takeWhile isWs, ¬x = '\n')
    (h5 : rest.dropWhile isWs ≠ []) :
    matchG2 (ifndef_line nm ++ (w ++ (define_line nm ++ rest))) = some rest := by
  rw [matchG2_to_g2Define _ h1 h2, g2Define_ws _ _ _ h3, g2Ident_self _ h1 h2,
    endSpan_nl h4 h5]

theorem splitLines_ne_nil {s : List Char} (h : s ≠ []) : splitLines s ≠ [] := by
  intro hsp
  have := joinL_splitLines s
  rw [hsp] at this
  exact h this.symm

/-- When the guard regex already matches at the very start of the content,
`re.search` reports it there, with empty `pre_guard_content`. -/
theorem findGuard_of_matchG2 {s₀ post : List Char} (hne : s₀ ≠ [])
    (hm : matchG2 s₀ = some post) : findGuard s₀ = some ([], post) := by
  rw [findGuard]
  cases hsp : splitLines s₀ with
  | nil => exact absurd hsp (splitLines_ne_nil hne)
  | cons l ls =>
    have hjoin : joinL (l :: ls) = s₀ := by rw [← hsp, joinL_splitLines]
    rw [findGuardLines, hjoin, hm]

/-! ### Evaluating the Nesting Matcher -/

theorem lIf_eq : lIf = '#' :: 'i' :: 'f' :: [] := rfl

theorem lEndif_eq : lEndif = '#' :: 'e' :: 'n' :: 'd' :: 'i' :: 'f' :: [] := rfl

/-- A line recognized as a `#endif` directive is not recognized as an
opening directive: the `#if` and `#endif` literal heads are incompatible. -/
theorem begins_lIf_of_lEndif {t : List Char} (h : begins lEndif t = true) :
    begins lIf t = false := by
  obtain ⟨r, rfl⟩ := (begins_iff_ex _ _).mp h
  rw [lEndif_eq]
  simp only [List.cons_append, List.nil_append]
  rw [lIf_eq]
  simp [begins, show ('i' == 'e') = false from rfl]

/-- A directive line contains a non-whitespace character, hence is not a
blank line. -/
theorem not_blank_of_close {l : List Char} (h : begins lEndif (l.dropWhile isWs) = true) :
    isBlankLine l = false := by
  obtain ⟨r, hr⟩ := (begins_iff_ex _ _).mp h
  have hne : l.dropWhile isWs ≠ [] := by
    rw [hr, lEndif_eq]
    simp
  exact all_eq_false_of_dropWhile_ne _ hne

theorem scanLines_nil (st : List Unit) (acc : List (List Char)) :
    scanLines st acc [] = .exhausted := rfl

theorem scanLines_cons (st : List Unit) (acc : List (List Char)) (l : List Char)
    (ls : List (List Char)) :
    scanLines st acc (l :: ls) =
      if begins lIf (l.dropWhile isWs) then scanLines (() :: st) (l :: acc) ls
      else if begins lEndif (l.dropWhile isWs) then
        match st with
        | [] => .popEmpty
        | [_] => .found (betweenOf acc) (suffixFrom l ls)
        | _ :: rest => scanLines rest (l :: acc) ls
      else scanLines st (l :: acc) ls := by
  rw [scanLines.eq_def]

theorem scanLines_open {l : List Char} (st : List Unit) (acc ls)
    (h : begins lIf (l.dropWhile isWs) = true) :
    scanLines st acc (l :: ls) = scanLines (() :: st) (l :: acc) ls := by
  rw [scanLines_cons, if_pos h]

theorem scanLines_skip {l : List Char} (st : List Unit) (acc ls)
    (h1 : ¬begins lIf (l.dropWhile isWs) = true)
    (h2 : ¬begins lEndif (l.dropWhile isWs) = true) :
    scanLines st acc (l :: ls) = scanLines st (l :: acc) ls := by
  rw [scanLines_cons, if_neg h1, if_neg h2]

theorem scanLines_close_found {l : List Char} (u : Unit) (acc ls)
    (h : begins lEndif (l.dropWhile isWs) = true) :
    scanLines [u] acc (l :: ls) = .found (betweenOf acc) (suffixFrom l ls) := by
  rw [scanLines_cons, if_neg (by simp [begins_lIf_of_lEndif h]), if_pos h]

theorem scanLines_close_deep {l : List Char} (u v : Unit) (st : List Unit) (acc ls)
    (h : begins lEndif (l.dropWhile isWs) = true) :
    scanLines (u :: v :: st) acc (l :: ls) = scanLines (v :: st) (l :: acc) ls := by
  rw [scanLines_cons, if_neg (by simp [begins_lIf_of_lEndif h]), if_pos h]

/-- Starting from a non-empty stack, the scan loop never pops an empty
stack: every pop is guarded by the early return at depth zero. -/
theorem scanLines_no_popEmpty :
    ∀ (ls : List (List Char)) (st : List Unit) (acc : List (List Char)), st ≠ [] →
      scanLines st acc ls ≠ .popEmpty := by
  intro ls
  induction ls with
  | nil =>
    intro st acc _
    rw [scanLines_nil]
    exact fun hh => ScanRes.noConfusion hh
  | cons l ls ih =>
    intro st acc hst
    by_cases h1 : begins lIf (l.dropWhile isWs) = true
    · rw [scanLines_open _ _ _ h1]
      exact ih _ _ (by simp)
    · by_cases h2 : begins lEndif (l.dropWhile isWs) = true
      · cases st with
        | nil => exact absurd rfl hst
        | cons u st' =>
          cases st' with
          | nil =>
            rw [scanLines_close_found _ _ _ h2]
            exact fun hh => ScanRes.noConfusion hh
          | cons v st'' =>
            rw [scanLines_close_deep _ _ _ _ _ h2]
            exact ih _ _ (by simp)
      · rw [scanLines_skip _ _ _ h1 h2]
        exact ih _ _ hst

/-- Processing `N` opening lines followed by `N` closing lines from a
non-empty stack returns to the same stack without triggering the early
return, accumulating all `2N` lines. -/
theorem scanLines_balanced {o c : List Char}
    (ho : begins lIf (o.dropWhile isWs) = true)
    (hc : begins lEndif (c.dropWhile isWs) = true) :
    ∀ (N : Nat) (st : List Unit) (acc ls), st ≠ [] →
      scanLines st acc (List.replicate N o ++ List.replicate N c ++ ls)
        = scanLines st (List.replicate N c ++ List.replicate N o ++ acc) ls := by
  intro N
  induction N with
  | zero => intro st acc ls _; simp
  | succ n ih =>
    intro st acc ls hst
    cases st with
    | nil => exact absurd rfl hst
    | cons w st₂ =>
      have e1 : List.replicate (n + 1) o ++ List.replicate (n + 1) c ++ ls
          = o :: (List.replicate n o ++ List.replicate n c ++ (c :: ls)) := by
        rw [List.replicate_succ, List.replicate_succ']
        simp [List.append_assoc]
      have e2 : List.replicate (n + 1) c ++ List.replicate (n + 1) o ++ acc
          = c :: (List.replicate n c ++ List.replicate n o ++ (o :: acc)) := by
        rw [List.replicate_succ, List.replicate_succ']
        simp [List.append_assoc]
      rw [e1, scanLines_open _ _ _ ho,
        ih (() :: w :: st₂) (o :: acc) (c :: ls) (by simp),
        scanLines_close_deep _ _ _ _ _ hc, e2]

/-- The scan over `N` nested blocks and one more closing line, from the
guard's seeded stack of depth one: the early return fires exactly at that
final closing line, with all `2N` block lines in the body. -/
theorem scanLines_guard_found {o c e : List Char}
    (ho : begins lIf (o.dropWhile isWs) = true)
    (hc : begins lEndif (c.dropWhile isWs) = true)
    (he : begins lEndif (e.dropWhile isWs) = true)
    (N : Nat) (tailLines : List (List Char)) :
    scanLines [()] [] (List.replicate N o ++ List.replicate N c ++ (e :: tailLines))
      = .found (joinL (List.replicate N o ++ List.replicate N c)) (suffixFrom e tailLines) := by
  rw [scanLines_balanced ho hc N [()] [] _ (by simp), scanLines_close_found _ _ _ he]
  have hdrop : (List.replicate N c ++ List.replicate N o ++ ([] : List (List Char))).dropWhile isBlankLine
      = List.replicate N c ++ List.replicate N o := by
    cases N with
    | zero => simp
    | succ n =>
      rw [List.append_nil, List.replicate_succ, List.cons_append,
        dropWhile_cons_neg _ _ _ (not_blank_of_close hc)]
  rw [betweenOf, hdrop, List.reverse_append, List.reverse_replicate, List.reverse_replicate]

/-- A `#endif` line keeps its final newline in the suffix, because the
directive match ends just before it. -/
theorem suffixFrom_line {l : List Char} (hl : isLine l = true) (ls : List (List Char)) :
    suffixFrom l ls = '\n' :: joinL ls := by
  rw [suffixFrom, if_pos]
  · rfl
  · rw [isLine, Bool.and_eq_true] at hl
    exact hl.1

/-! ### Assembling `replace_header_guard` from its stages -/

theorem replaceExc_noguard {content : List Char} (h : findGuard content = none) :
    replaceExc content = .ok none := by
  rw [replaceExc, h]

theorem replaceExc_found {content pre post b suf : List Char}
    (h1 : findGuard content = some (pre, post))
    (h2 : scanLines [()] [] (splitLines post) = .found b suf) :
    replaceExc content = .ok (some (rstrip (pre ++ pragmaIns ++ b ++ suf) ++ ['\n'])) := by
  rw [replaceExc, h1]
  show (match scanLines [()] [] (splitLines post) with
    | ScanRes.popEmpty => Except.error ()
    | ScanRes.exhausted => Except.ok none
    | ScanRes.found between suffix =>
      Except.ok (some (rstrip (pre ++ pragmaIns ++ between ++ suffix) ++ ['\n']))) = _
  rw [h2]

theorem replaceExc_exhausted {content pre post : List Char}
    (h1 : findGuard content = some (pre, post))
    (h2 : scanLines [()] [] (splitLines post) = .exhausted) :
    replaceExc content = .ok none := by
  rw [replaceExc, h1]
  show (match scanLines [()] [] (splitLines post) with
    | ScanRes.popEmpty => Except.error ()
    | ScanRes.exhausted => Except.ok none
    | ScanRes.found between suffix =>
      Except.ok (some (rstrip (pre ++ pragmaIns ++ between ++ suffix) ++ ['\n']))) = _
  rw [h2]

theorem replace_of_found {content pre post b suf : List Char}
    (h1 : findGuard content = some (pre, post))
    (h2 : scanLines [()] [] (splitLines post) = .found b suf) :
    replace_header_guard content = some (rstrip (pre ++ pragmaIns ++ b ++ suf) ++ ['\n']) := by
  rw [replace_header_guard, replaceExc_found h1 h2]

theorem replace_of_exhausted {content pre post : List Char}
    (h1 : findGuard content = some (pre, post))
    (h2 : scanLines [()] [] (splitLines post) = .exhausted) :
    replace_header_guard content = none := by
  rw [replace_header_guard, replaceExc_exhausted h1 h2]

theorem replace_of_noguard {content : List Char} (h : findGuard content = none) :
    replace_header_guard content = none := by
  rw [replace_header_guard, replaceExc_noguard h]

/-! ### Line-shape bookkeeping -/

theorem dropLast_append_ne {α : Type} (a : List α) {b : List α} (h : b ≠ []) :
    (a ++ b).dropLast = a ++ b.dropLast := by
  induction a with
  | nil => rfl
  | cons x xs ih =>
    rw [List.cons_append]
    obtain ⟨y, t', ht⟩ : ∃ y t', xs ++ b = y :: t' := by
      cases hxb : xs ++ b with
      | nil => exact absurd (List.append_eq_nil.mp hxb).2 h
      | cons y t' => exact ⟨y, t', rfl⟩
    rw [ht]
    show x :: (y :: t').dropLast = x :: (xs ++ b.dropLast)
    rw [← ht, ih]

theorem dropWhile_ne_of_begins {p l : List Char} (hp : p ≠ [])
    (h : begins p (l.dropWhile isWs) = true) : l.dropWhile isWs ≠ [] := by
  obtain ⟨r, hr⟩ := (begins_iff_ex _ _).mp h
  rw [hr]
  intro hcontra
  exact hp (List.append_eq_nil.mp hcontra).1

/-- For a physical line `l` that has a non-whitespace character: its
leading whitespace contains no newline, and prefixing it to any text
leaves a non-whitespace character reachable. -/
theorem dir_line_stats {l : List Char} (hl : isLine l = true)
    (hne : l.dropWhile isWs ≠ []) (T : List Char) :
    (∀ x ∈ (l ++ T).takeWhile isWs, ¬x = '\n') ∧ (l ++ T).dropWhile isWs ≠ [] := by
  refine ⟨?_, ?_⟩
  · rw [takeWhile_append_stop _ _ hne]
    intro x hx
    obtain ⟨_, hAll⟩ := line_eq_dropLast_nl hl
    have hsplit : l.takeWhile isWs ++ l.dropWhile isWs = l :=
      List.takeWhile_append_dropWhile isWs l
    have hdl : l.dropLast = l.takeWhile isWs ++ (l.dropWhile isWs).dropLast := by
      conv_lhs => rw [← hsplit]
      exact dropLast_append_ne _ hne
    exact hAll x (by rw [hdl]; exact List.mem_append_left _ hx)
  · rw [dropWhile_append_stop _ _ hne]
    intro hcontra
    exact hne (List.append_eq_nil.mp hcontra).1

theorem lineKind_up_begins {l : List Char} (h : lineKind l = DirKind.up) :
    begins lIf (l.dropWhile isWs) = true := by
  by_cases h1 : begins lIf (l.dropWhile isWs) = true
  · exact h1
  · exfalso
    rw [lineKind, if_neg h1] at h
    by_cases h2 : begins lEndif (l.dropWhile isWs) = true
    · rw [if_pos h2] at h
      exact DirKind.noConfusion h
    · rw [if_neg h2] at h
      exact DirKind.noConfusion h

theorem lineKind_down_begins {l : List Char} (h : lineKind l = DirKind.down) :
    begins lEndif (l.dropWhile isWs) = true := by
  by_cases h2 : begins lEndif (l.dropWhile isWs) = true
  · exact h2
  · exfalso
    by_cases h1 : begins lIf (l.dropWhile isWs) = true
    · rw [lineKind, if_pos h1] at h
      exact DirKind.noConfusion h
    · rw [lineKind, if_neg h1, if_neg h2] at h
      exact DirKind.noConfusion h

theorem lineKind_keep_begins {l : List Char} (h : lineKind l = DirKind.keep) :
    ¬begins lIf (l.dropWhile isWs) = true ∧ ¬begins lEndif (l.dropWhile isWs) = true := by
  by_cases h1 : begins lIf (l.dropWhile isWs) = true
  · rw [lineKind, if_pos h1] at h
    exact absurd h (fun hh => DirKind.noConfusion hh)
  · by_cases h2 : begins lEndif (l.dropWhile isWs) = true
    · rw [lineKind, if_neg h1, if_pos h2] at h
      exact absurd h (fun hh => DirKind.noConfusion hh)
    · exact ⟨h1, h2⟩

/-! ### The claims -/

/-- Claim C1, counterexample: on the spec's example input,
`replace_header_guard` does NOT return the output string the claim
demands.  The code prepends `'\n#pragma once\n\n'` to the preserved
prologue `"// license\n"`, producing a blank line between the license and
the marker; and `post_endif_content` starts with the newline of the
matched `#endif` line while `between_content` already ends in a newline,
producing a blank line before `"int tail;"`. -/
theorem claim_C1_cex :
    replace_header_guard
        "// license\n#ifndef X_H\n#define X_H\n#ifdef FOO\nint a;\n#endif\n#endif\nint tail;\n".toList
      ≠ some "// license\n#pragma once\n\n#ifdef FOO\nint a;\n#endif\nint tail;\n".toList := by
  decide

/-- Claim C1 (amended): on the spec's example input the transform returns
exactly `"// license\n\n#pragma once\n\n#ifdef FOO\nint a;\n#endif\n\nint tail;\n"`
— the claimed output with one extra blank line after the prologue and one
extra blank line after the preserved nested `#endif`. -/
theorem claim_C1 :
    replace_header_guard
        "// license\n#ifndef X_H\n#define X_H\n#ifdef FOO\nint a;\n#endif\n#endif\nint tail;\n".toList
      = some "// license\n\n#pragma once\n\n#ifdef FOO\nint a;\n#endif\n\nint tail;\n".toList := by
  decide

/-- Claim C4, counterexample: the transform does NOT distinguish its
failure outcomes.  `"int x;\n"` has no guard-shaped pair, while
`"#ifndef A\n#define A\nint x;\n"` has a located guard with no matching
`#endif`; `replace_header_guard` returns the very same value, Python's
`None`, for both, so the caller cannot tell `MalformedNesting` apart from
`NoGuardFound` and there are only two result kinds, not three. -/
theorem claim_C4_cex :
    findGuard "int x;\n".toList = none
    ∧ findGuard "#ifndef A\n#define A\nint x;\n".toList = some ([], "int x;\n".toList)
    ∧ replace_header_guard "int x;\n".toList
        = replace_header_guard "#ifndef A\n#define A\nint x;\n".toList
    ∧ replace_header_guard "#ifndef A\n#define A\nint x;\n".toList = none := by
  decide

/-- Claim C4 (amended): the per-file transform has exactly two outcomes,
`some newText` and `none`, and the malformed-nesting failure is reported
as `none` — the same value as the no-guard outcome, indistinguishable to
the caller. -/
theorem claim_C4 {c₁ c₂ pre post : List Char}
    (h1 : findGuard c₁ = none)
    (h2 : findGuard c₂ = some (pre, post))
    (h3 : scanLines [()] [] (splitLines post) = ScanRes.exhausted) :
    replace_header_guard c₁ = replace_header_guard c₂
      ∧ replace_header_guard c₂ = none := by
  rw [replace_of_noguard h1, replace_of_exhausted h2 h3]
  exact ⟨rfl, rfl⟩

/-- Claim C4, witness: the two concrete failure scenarios instantiating
the amended statement. -/
theorem claim_C4_witness :
    replace_header_guard "int x;\n".toList
        = replace_header_guard "#ifndef A\n#define A\nint x;\n".toList
      ∧ replace_header_guard "#ifndef A\n#define A\nint x;\n".toList = none :=
  @claim_C4 ("int x;\n".toList) ("#ifndef A\n#define A\nint x;\n".toList) []
    ("int x;\n".toList) (by decide) (by decide) (by decide)

/-- Claim C5: when a guard is located but the depth counter never returns
to zero before end of text, `replace_header_guard` yields no rewritten
buffer (`none`) and the caller (`process_file`) keeps the original
content unchanged — no partial output is ever produced. -/
theorem claim_C5 {content pre post : List Char}
    (h1 : findGuard content = some (pre, post))
    (h2 : scanLines [()] [] (splitLines post) = ScanRes.exhausted) :
    replace_header_guard content = none ∧ rewriteFile content = content := by
  have h := replace_of_exhausted h1 h2
  refine ⟨h, ?_⟩
  show (replace_header_guard content).getD content = content
  rw [h]
  rfl

/-- Claim C5, witness: a located guard whose conditional stack never
empties; the file text is kept byte-for-byte. -/
theorem claim_C5_witness :
    replace_header_guard "#ifndef X\n#define X\nint a;\nint b;\n".toList = none
      ∧ rewriteFile "#ifndef X\n#define X\nint a;\nint b;\n".toList
        = "#ifndef X\n#define X\nint a;\nint b;\n".toList :=
  @claim_C5 ("#ifndef X\n#define X\nint a;\nint b;\n".toList) []
    ("int a;\nint b;\n".toList) (by decide) (by decide)

/-- Claim C10: `replace_header_guard` terminates normally on every input,
returning `none` or a string and never raising: in the model, the
explicit-exception version `replaceExc` (where `.error ()` stands for
`list.pop()` on an empty stack, Python's `IndexError`) always returns
`.ok`, because the scan returns as soon as a pop empties the stack, so
the stack is non-empty at every pop site. -/
theorem claim_C10 :
    ∀ content : List Char, ∃ r : Option (List Char),
      replaceExc content = Except.ok r ∧ replace_header_guard content = r := by
  intro content
  cases h1 : findGuard content with
  | none =>
    refine ⟨none, replaceExc_noguard h1, ?_⟩
    rw [replace_header_guard, replaceExc_noguard h1]
  | some pr =>
    obtain ⟨pre, post⟩ := pr
    cases h2 : scanLines [()] [] (splitLines post) with
    | popEmpty => exact absurd h2 (scanLines_no_popEmpty _ _ _ (by simp))
    | exhausted =>
      refine ⟨none, replaceExc_exhausted h1 h2, ?_⟩
      rw [replace_header_guard, replaceExc_exhausted h1 h2]
    | found b suf =>
      refine ⟨some (rstrip (pre ++ pragmaIns ++ b ++ suf) ++ ['\n']),
        replaceExc_found h1 h2, ?_⟩
      rw [replace_header_guard, replaceExc_found h1 h2]

/-- Claim C3, counterexample: full idempotence fails.  The input contains
a well-formed guard (`#ifndef A`/`#define A`/`#endif`), yet applying the
per-file transform twice differs from applying it once: the first pass
rewrites only the first guard-shaped pair, the second pass then finds and
rewrites the second pair that survived in the output. -/
theorem claim_C3_cex :
    rewriteFile (rewriteFile
        "#ifndef A\n#define A\n#endif\n#ifndef B\n#define B\n#endif\nx\n".toList)
      ≠ rewriteFile
        "#ifndef A\n#define A\n#endif\n#ifndef B\n#define B\n#endif\nx\n".toList := by
  decide

/-- Claim C3 (amended): for an input with a located, well-formed guard,
the transform is idempotent provided the first pass's output contains no
further guard-shaped pair (the locator finds no guard in `rewrite(H)`,
which is the spec's own justification for idempotence); then the second
pass is a no-op. -/
theorem claim_C3 {H pre post b suf : List Char}
    (_h1 : findGuard H = some (pre, post))
    (_h2 : scanLines [()] [] (splitLines post) = ScanRes.found b suf)
    (h3 : replace_header_guard (rewriteFile H) = none) :
    rewriteFile (rewriteFile H) = rewriteFile H := by
  show (replace_header_guard (rewriteFile H)).getD (rewriteFile H) = rewriteFile H
  rw [h3]
  rfl

/-- Claim C3, witness: a single-guard header; the rewritten output
carries no guard-shaped pair, and the second pass leaves it unchanged. -/
theorem claim_C3_witness :
    rewriteFile (rewriteFile "#ifndef X\n#define X\nint a;\n#endif\n".toList)
      = rewriteFile "#ifndef X\n#define X\nint a;\n#endif\n".toList :=
  @claim_C3 ("#ifndef X\n#define X\nint a;\n#endif\n".toList) []
    ("int a;\n#endif\n".toList) ("int a;\n".toList) ("\n".toList)
    (by decide) (by decide) (by decide)

/-- Claim C9, counterexample: body preservation fails away from the end
of file.  In this input the bytes strictly between the end of the
`#define` line and the start of the matched `#endif` line are
`"int a;\n\n\n"`, but they do not occur contiguously anywhere in the
output: the two whitespace-only lines immediately before the `#endif`
are absorbed into the `#endif` directive's own match (its `^\s*` spans
preceding blank lines) and so are dropped from `between_content`, even
though preserved text (`"int t;"`) still follows — so this is not the
permitted end-of-file trim. -/
theorem claim_C9_cex :
    replace_header_guard "#ifndef X\n#define X\nint a;\n\n\n#endif\nint t;\n".toList
        = some "\n#pragma once\n\nint a;\n\nint t;\n".toList
    ∧ hasSeg "int a;\n\n\n".toList "\n#pragma once\n\nint a;\n\nint t;\n".toList = false
    ∧ hasSeg "int t;".toList "\n#pragma once\n\nint a;\n\nint t;\n".toList = true := by
  decide

/-- Claim C9 (amended): whenever the transform returns a rewritten text,
(1) the prologue — the bytes before the located `#ifndef` line — appears
byte-identical as the exact leading segment of the output, and (2) the
scan's `between_content` — the body bytes minus the trailing run of
whitespace-only lines absorbed by the `#endif` match — appears
byte-identical as a contiguous segment of the output, provided the
suffix after the matched `#endif` contains a non-whitespace character
(otherwise the end-of-file trim may shorten it). -/
theorem claim_C9 {content pre post b suf out : List Char}
    (h1 : findGuard content = some (pre, post))
    (h2 : scanLines [()] [] (splitLines post) = ScanRes.found b suf)
    (h3 : replace_header_guard content = some out) :
    begins pre out = true ∧ ((∃ x ∈ suf, isWs x = false) → hasSeg b out = true) := by
  have hout : out = rstrip (pre ++ pragmaIns ++ b ++ suf) ++ ['\n'] :=
    Option.some.inj ((h3.symm).trans (replace_of_found h1 h2))
  constructor
  · rw [hout]
    have hassoc : pre ++ pragmaIns ++ b ++ suf = pre ++ (pragmaIns ++ (b ++ suf)) := by
      simp [List.append_assoc]
    have hmem : '#' ∈ pragmaIns ++ (b ++ suf) :=
      List.mem_append_left _ (by decide)
    rw [hassoc, rstrip_append_of_mem hmem (by decide), List.append_assoc]
    exact begins_append_self _ _
  · rintro ⟨x, hx, hxw⟩
    rw [hout]
    rw [rstrip_append_of_mem hx hxw]
    have e : pre ++ pragmaIns ++ b ++ rstrip suf ++ ['\n']
        = (pre ++ pragmaIns) ++ (b ++ (rstrip suf ++ ['\n'])) := by
      simp [List.append_assoc]
    rw [e]
    exact hasSeg_mid _ _ _

/-- Claim C9, witness: a prologue `"A\n"` and body `"body\n"` both
reappear in the output of a successful rewrite. -/
theorem claim_C9_witness :
    begins "A\n".toList "A\n\n#pragma once\n\nbody\n\ntail\n".toList = true
    ∧ ((∃ x ∈ "\ntail\n".toList, isWs x = false) →
        hasSeg "body\n".toList "A\n\n#pragma once\n\nbody\n\ntail\n".toList = true) :=
  @claim_C9 ("A\n#ifndef X\n#define X\nbody\n#endif\ntail\n".toList) ("A\n".toList)
    ("body\n#endif\ntail\n".toList) ("body\n".toList) ("\ntail\n".toList)
    ("A\n\n#pragma once\n\nbody\n\ntail\n".toList)
    (by decide) (by decide) (by decide)

/-- Claim C6: the Guard Locator accepts an `#ifndef NAME` line and a
`#define NAME` line separated by any whitespace-only text `w` (zero or
more blank lines) as a guard pair — locating it with empty prologue and
`post_define_content` equal to the text after the `#define` line — but
rejects the pair for non-blank intervening content that is not itself
the matching `#define` directive; the regex attempt at the `#ifndef`
position fails for each shape such content can take:
(i) intervening text whose first non-whitespace content does not start
with the literal `#define` — plain code lines as well as other
directives such as `#include`, `#pragma` or `#if 0`;
(ii) a `#define NAME` line with the matching identifier but junk before
its line end (e.g. `#define A extra`);
(iii) `#define` glued to a non-whitespace character (e.g. `#definextra`).
Concrete end-to-end inputs of each shape locate no guard anywhere.
(The hypotheses on `rest` in the acceptance part pin
`post_define_content`: its leading whitespace holds no newline and it
has a non-whitespace character.) -/
theorem claim_C6 :
    (∀ nm w rest : List Char, nm ≠ [] → (∀ ch ∈ nm, isWord ch = true) →
      (∀ ch ∈ w, isWs ch = true) → (∀ x ∈ rest.takeWhile isWs, ¬x = '\n') →
      rest.dropWhile isWs ≠ [] →
      findGuard (ifndef_line nm ++ (w ++ (define_line nm ++ rest))) = some ([], rest))
    ∧ (∀ nm mid rest₂ : List Char, nm ≠ [] → (∀ ch ∈ nm, isWord ch = true) →
      mid.dropWhile isWs ≠ [] → begins lDefine (mid.dropWhile isWs) = false →
      matchG2 (ifndef_line nm ++ (mid ++ (define_line nm ++ rest₂))) = none)
    ∧ (∀ nm j X : List Char, nm ≠ [] → (∀ ch ∈ nm, isWord ch = true) →
      (∀ x ∈ j.takeWhile isWs, ¬x = '\n') → j.dropWhile isWs ≠ [] →
      matchG2 (ifndef_line nm ++ ((lDefine ++ ' ' :: (nm ++ j)) ++ X)) = none)
    ∧ (∀ (nm : List Char) (d : Char) (r X : List Char), nm ≠ [] →
      (∀ ch ∈ nm, isWord ch = true) → isWs d = false →
      matchG2 (ifndef_line nm ++ ((lDefine ++ d :: r) ++ X)) = none)
    ∧ replace_header_guard "#ifndef A\nint q;\n#define A\n#endif\n".toList = none
    ∧ replace_header_guard "#ifndef A\n#include <x>\n#define A\n#endif\n".toList = none
    ∧ replace_header_guard "#ifndef A\n#pragma once\n#define A\n#endif\n".toList = none
    ∧ replace_header_guard "#ifndef A\n#if 0\n#define A\n#endif\n#endif\n".toList = none
    ∧ replace_header_guard "#ifndef A\n#define A extra\n#define A\n#endif\n".toList
        = none := by
  refine ⟨?_, ?_, ?_, ?_, by decide, by decide, by decide, by decide, by decide⟩
  · intro nm w rest hnm1 hnm2 hw h4 h5
    apply findGuard_of_matchG2
    · intro hcontra
      have := List.append_eq_nil.mp hcontra
      rw [ifndef_line, lIfndef_eq] at this
      exact List.noConfusion this.1
    · exact matchG2_found hnm1 hnm2 hw h4 h5
  · intro nm mid rest₂ hnm1 hnm2 hmid hnb
    rw [matchG2_to_g2Define _ hnm1 hnm2]
    refine g2Define_mid_reject nm _ hmid hnb ?_
    intro c hc
    rw [define_line, lDefine_eq] at hc
    simp only [List.cons_append, List.head?_cons, Option.some.injEq] at hc
    subst hc
    decide
  · intro nm j X hnm1 hnm2 hj1 hj2
    exact matchG2_junk_reject X hnm1 hnm2 hj1 hj2
  · intro nm d r X hnm1 hnm2 hd
    exact matchG2_nows_reject r X hnm1 hnm2 hd

/-- Claim C6, witness: one blank line between the directives is accepted
(guard located, `post_define_content = "#endif\n"`); each rejection
shape is exercised — an `#include` line, a `#define A extra` line, and a
`#definextra` line between the directives all defeat the regex attempt
at the `#ifndef` position. -/
theorem claim_C6_witness :
    findGuard (ifndef_line "X".toList
        ++ ("\n".toList ++ (define_line "X".toList ++ "#endif\n".toList)))
      = some ([], "#endif\n".toList)
    ∧ matchG2 (ifndef_line "A".toList
        ++ ("#include <x>\n".toList ++ (define_line "A".toList ++ "#endif\n".toList)))
      = none
    ∧ matchG2 (ifndef_line "A".toList
        ++ ((lDefine ++ ' ' :: ("A".toList ++ " extra\n".toList))
          ++ "#define A\n#endif\n".toList))
      = none
    ∧ matchG2 (ifndef_line "A".toList
        ++ ((lDefine ++ 'x' :: "tra\n".toList) ++ "#define A\n#endif\n".toList))
      = none :=
  ⟨claim_C6.1 ("X".toList) ("\n".toList) ("#endif\n".toList)
      (by decide) (by decide) (by decide) (by decide) (by decide),
    claim_C6.2.1 ("A".toList) ("#include <x>\n".toList) ("#endif\n".toList)
      (by decide) (by decide) (by decide) (by decide),
    claim_C6.2.2.1 ("A".toList) (" extra\n".toList) ("#define A\n#endif\n".toList)
      (by decide) (by decide) (by decide) (by decide),
    claim_C6.2.2.2.1 ("A".toList) 'x' ("tra\n".toList) ("#define A\n#endif\n".toList)
      (by decide) (by decide) (by decide)⟩

/-- Claim C7: a guard pair is located only for character-for-character
identical identifiers: for any two distinct non-empty identifiers `A`
and `B`, the guard regex attempt on `#ifndef A⏎#define B⏎...` fails (the
back-reference `\3` cannot match), and on the concrete end-to-end input
`#ifndef FOO⏎#define BAR⏎...` with no other guard-shaped pair,
`replace_header_guard` reports no guard found. -/
theorem claim_C7 :
    (∀ A B rest : List Char, A ≠ [] → B ≠ [] →
      (∀ ch ∈ A, isWord ch = true) → (∀ ch ∈ B, isWord ch = true) → A ≠ B →
      matchG2 (ifndef_line A ++ (define_line B ++ rest)) = none)
    ∧ replace_header_guard "#ifndef FOO\n#define BAR\nint x;\n#endif\n".toList = none := by
  refine ⟨?_, by decide⟩
  intro A B rest hA hB hAw hBw hne
  rw [matchG2_to_g2Define _ hA hAw]
  have hnil : define_line B ++ rest = [] ++ (define_line B ++ rest) := rfl
  rw [hnil, g2Define_ws _ _ _ (by intro c hc; exact absurd hc (List.not_mem_nil c))]
  exact g2Ident_ne _ hAw hB hBw hne

/-- Claim C7, witness: `FOO` vs `BAR`. -/
theorem claim_C7_witness :
    matchG2 (ifndef_line "FOO".toList
        ++ (define_line "BAR".toList ++ "int x;\n#endif\n".toList)) = none :=
  claim_C7.1 ("FOO".toList) ("BAR".toList) ("int x;\n#endif\n".toList)
    (by decide) (by decide) (by decide) (by decide) (by decide)

/-- Claim C2: for a located guard whose `#define` is followed by `N`
nested conditional blocks — `N` opening `#if`/`#ifdef`/`#ifndef` lines,
then `N` closing `#endif` lines — and then one more `#endif` line, the
matcher terminates exactly at that final line, the (N+1)-th `#endif`
after the `#define` (the first at which the depth counter, seeded at 1,
reaches 0): all `2N` block lines land in the body and the suffix starts
at the terminating `#endif` line's newline, so the split is not at the
first `#endif` (which, for `N ≥ 1`, sits inside the body). -/
theorem claim_C2 {nm o c e tail : List Char} (N : Nat)
    (hnm1 : nm ≠ []) (hnm2 : ∀ ch ∈ nm, isWord ch = true)
    (hoL : isLine o = true) (hcL : isLine c = true) (heL : isLine e = true)
    (ho : begins lIf (o.dropWhile isWs) = true)
    (hc : begins lEndif (c.dropWhile isWs) = true)
    (he : begins lEndif (e.dropWhile isWs) = true) :
    replace_header_guard (ifndef_line nm ++ (define_line nm
        ++ (joinL (List.replicate N o ++ List.replicate N c) ++ (e ++ tail))))
      = some (rstrip (pragmaIns ++ joinL (List.replicate N o ++ List.replicate N c)
        ++ '\n' :: tail) ++ ['\n']) := by
  have hstats : (∀ x ∈ (joinL (List.replicate N o ++ List.replicate N c)
        ++ (e ++ tail)).takeWhile isWs, ¬x = '\n')
      ∧ (joinL (List.replicate N o ++ List.replicate N c)
        ++ (e ++ tail)).dropWhile isWs ≠ [] := by
    cases N with
    | zero =>
      simpa [joinL] using
        dir_line_stats heL (dropWhile_ne_of_begins (by rw [lEndif_eq]; simp) he) tail
    | succ n =>
      have hshape : joinL (List.replicate (n + 1) o ++ List.replicate (n + 1) c)
          ++ (e ++ tail)
          = o ++ (joinL (List.replicate n o ++ List.replicate (n + 1) c) ++ (e ++ tail)) := by
        rw [List.replicate_succ, List.cons_append, joinL, List.append_assoc]
      rw [hshape]
      exact dir_line_stats hoL (dropWhile_ne_of_begins (by rw [lIf_eq]; simp) ho) _
  have hlines : ∀ l ∈ List.replicate N o ++ List.replicate N c, isLine l = true := by
    intro l hl
    rcases List.mem_append.mp hl with h | h
    · rw [List.eq_of_mem_replicate h]
      exact hoL
    · rw [List.eq_of_mem_replicate h]
      exact hcL
  have hfind : findGuard (ifndef_line nm ++ (define_line nm
      ++ (joinL (List.replicate N o ++ List.replicate N c) ++ (e ++ tail))))
      = some ([], joinL (List.replicate N o ++ List.replicate N c) ++ (e ++ tail)) := by
    apply findGuard_of_matchG2
    · intro hcontra
      have := List.append_eq_nil.mp hcontra
      rw [ifndef_line, lIfndef_eq] at this
      exact List.noConfusion this.1
    · exact matchG2_found hnm1 hnm2
        (fun ch hch => absurd hch (List.not_mem_nil ch)) hstats.1 hstats.2
  have hsplit : splitLines (joinL (List.replicate N o ++ List.replicate N c) ++ (e ++ tail))
      = List.replicate N o ++ List.replicate N c ++ (e :: splitLines tail) := by
    rw [splitLines_joinL_lines hlines, splitLines_line_append heL]
  have hscan : scanLines [()] []
      (splitLines (joinL (List.replicate N o ++ List.replicate N c) ++ (e ++ tail)))
      = ScanRes.found (joinL (List.replicate N o ++ List.replicate N c))
        (suffixFrom e (splitLines tail)) := by
    rw [hsplit]
    exact scanLines_guard_found ho hc he N _
  rw [replace_of_found hfind hscan, suffixFrom_line heL, joinL_splitLines]
  simp [List.append_assoc]

/-- Claim C2, witness: `N = 1` with an `#ifdef FOO` block wrapped by the
guard; the terminator is the second `#endif`, and the body keeps the
block's own `#ifdef`/`#endif` pair. -/
theorem claim_C2_witness :
    ("X".toList : List Char) ≠ []
    ∧ isLine "#ifdef FOO\n".toList = true
    ∧ replace_header_guard (ifndef_line "X".toList ++ (define_line "X".toList
        ++ (joinL (List.replicate 1 "#ifdef FOO\n".toList
            ++ List.replicate 1 "#endif\n".toList)
          ++ ("#endif\n".toList ++ "int t;\n".toList))))
      = some (rstrip (pragmaIns ++ joinL (List.replicate 1 "#ifdef FOO\n".toList
          ++ List.replicate 1 "#endif\n".toList) ++ '\n' :: "int t;\n".toList) ++ ['\n']) :=
  ⟨by decide, by decide,
    @claim_C2 ("X".toList) ("#ifdef FOO\n".toList) ("#endif\n".toList) ("#endif\n".toList)
      ("int t;\n".toList) 1 (by decide) (by decide) (by decide) (by decide) (by decide)
      (by decide) (by decide) (by decide)⟩

/-- Claim C8, counterexample: the scan's depth does NOT change exactly on
the lines matching `^\s*#(if|ifdef|ifndef|endif)\b` — the source pattern
has no `\b`.  After this input's `#define`, no line matches the
word-boundary pattern of the claim (so under the claim the depth would
stay at its seed and no terminator would exist, making the result
`None`), yet the code decrements on the `#endifoo` line, reaches depth
zero there, and returns a rewrite split at that line. -/
theorem claim_C8_cex :
    findGuard "#ifndef G\n#define G\n#endifoo\nint t;\n".toList
        = some ([], "#endifoo\nint t;\n".toList)
    ∧ (splitLines "#endifoo\nint t;\n".toList).all (fun l => !spec_directive_line l) = true
    ∧ replace_header_guard "#ifndef G\n#define G\n#endifoo\nint t;\n".toList
        = some "\n#pragma once\n\n\nint t;\n".toList := by
  decide

/-- Claim C8 (amended): the scan changes depth exactly on the lines whose
first non-whitespace text starts with the prefix `#if` (increment) or
`#endif` (decrement) — no word boundary, so e.g. `#iffy` increments and
`#endifoo` decrements — processed in document order; every other line, in
particular `#elif` and `#else` lines, leaves the depth unchanged and is
accumulated verbatim into the body, as the end-to-end example with an
`#elif`/`#else` chain shows. -/
theorem claim_C8 :
    (∀ (st : List Unit) (acc : List (List Char)) (l : List Char) (ls : List (List Char)),
      (lineKind l = DirKind.up →
        scanLines st acc (l :: ls) = scanLines (() :: st) (l :: acc) ls)
      ∧ (lineKind l = DirKind.keep →
        scanLines st acc (l :: ls) = scanLines st (l :: acc) ls)
      ∧ (∀ (v : Unit) (st₂ : List Unit), lineKind l = DirKind.down →
          st = () :: v :: st₂ →
          scanLines st acc (l :: ls) = scanLines (v :: st₂) (l :: acc) ls))
    ∧ lineKind "#elif FOO\n".toList = DirKind.keep
    ∧ lineKind "#else\n".toList = DirKind.keep
    ∧ lineKind "#endifoo\n".toList = DirKind.down
    ∧ lineKind "#iffy\n".toList = DirKind.up
    ∧ replace_header_guard
        "#ifndef G\n#define G\n#if A\nx\n#elif B\ny\n#else\nz\n#endif\n#endif\ntail\n".toList
      = some "\n#pragma once\n\n#if A\nx\n#elif B\ny\n#else\nz\n#endif\n\ntail\n".toList := by
  refine ⟨?_, by decide, by decide, by decide, by decide, by decide⟩
  intro st acc l ls
  refine ⟨fun h => scanLines_open _ _ _ (lineKind_up_begins h), fun h => ?_, ?_⟩
  · obtain ⟨h1, h2⟩ := lineKind_keep_begins h
    exact scanLines_skip _ _ _ h1 h2
  · intro v st₂ h hst
    subst hst
    exact scanLines_close_deep _ _ _ _ _ (lineKind_down_begins h)

/-- Claim C8, witness: an `#elif` line passes through with the stack
untouched; an `#endifoo` line pops one entry at depth three. -/
theorem claim_C8_witness :
    scanLines [()] [] ["#elif FOO\n".toList] = scanLines [()] ["#elif FOO\n".toList] []
    ∧ scanLines [(), (), ()] [] ["#endifoo\n".toList]
      = scanLines [(), ()] ["#endifoo\n".toList] [] :=
  ⟨(claim_C8.1 [()] [] ("#elif FOO\n".toList) []).2.1 (by decide),
    (claim_C8.1 [(), (), ()] [] ("#endifoo\n".toList) []).2.2 () [()] (by decide) rfl⟩

end HG
